import Mathlib

/-!
Shallow embedding of `src/on_off_detection/methods/hmmem.py` (HMM-EM method for
ON/OFF state detection, translated from Zhe Chen's MATLAB code).

Modelling conventions:
* Machine floats are modelled by `ℚ`.  The transcendental float functions
  `np.exp` and `np.log` are taken as explicit parameters `rexp rlog : ℚ → ℚ`
  of every definition that uses them (a float `exp` may underflow to `0`,
  which the abstract parameter can represent).
* Python float division by zero yields non-signalling junk (inf/nan) and the
  program continues; in `ℚ` the junk value is `x / 0 = 0`.  No claim below
  relies on the value of such junk, only on control flow, which agrees.
* The two explicit `raise ValueError` sites and the `assert` in
  `newton_ralphson` are the only error exits; they are modelled by `Except`.
* `np.empty((n_iter_EM,))` returns uninitialized memory; the initial contents
  are modelled by an arbitrary parameter `logP0 : ℕ → ℚ`.
* Arrays indexed `[state, k]` are modelled as functions; the spike-count and
  history rows (`bin_spike_count[0, :]`, `bin_history_spike_count[0, :]`) as
  `ℕ → ℕ` together with an explicit length `nbins`.
-/

namespace OnOff

/-- `EPS = np.spacing(1)`, the machine epsilon of float64. -/
def EPS : ℚ := 1 / 2 ^ 52

/-- `STATES = [0, 1]` used as numeric multipliers. -/
def stateVal : Fin 2 → ℚ := fun i => (i : ℚ)

/-!  ### History sequence (`run_hmmem`, lines 56-60)

`pd.Series(count).rolling(W + 1, center=False, min_periods=1).sum() - count`:
the rolling window of size `W + 1` at position `k` covers indices
`k - W .. k` (truncated at the start of the array by `min_periods=1`), and the
current bin's own count is subtracted afterwards. -/

/-- Rolling sum of window size `w` ending at (and including) index `k`,
with a shrinking window at the start (`min_periods=1`). -/
def rollingSum (w : ℕ) (count : ℕ → ℕ) (k : ℕ) : ℕ :=
  ∑ j in Finset.Icc (k + 1 - w) k, count j

/-- `bin_history_spike_count` of `run_hmmem`: `(W+1)`-window rolling sum minus
the current bin's count. -/
def historySeq (W : ℕ) (count : ℕ → ℕ) (k : ℕ) : ℕ :=
  rollingSum (W + 1) count k - count k

/-!  ### Emission model (`_run_hmmem`, lines 128-142, Eq 2.3 and 2.2) -/

/-- `bin_lambda[state, k] = exp(mu + alphaa * STATES[state] + betaa * history[k])`. -/
def binLambda (rexp : ℚ → ℚ) (mu alphaa betaa : ℚ) (hist : ℕ → ℕ) :
    Fin 2 → ℕ → ℚ :=
  fun i k => rexp (mu + alphaa * stateVal i + betaa * (hist k : ℚ))

/-- `B[state, k] = exp(-lambda) * lambda ** count / factorial(count)`
(Poisson pmf; the integer power and factorial are exact). -/
def emissionB (rexp : ℚ → ℚ) (lam : Fin 2 → ℕ → ℚ) (count : ℕ → ℕ) :
    Fin 2 → ℕ → ℚ :=
  fun i k => rexp (-(lam i k)) * (lam i k) ^ (count k) / (Nat.factorial (count k) : ℚ)

/-!  ### E-step: scaled forward pass (`_run_hmmem`, lines 163-184)

`fwd k = (alpha[:, k] after scaling, C[k])`.  The code divides by `C[0]`
without any guard; for `k ≥ 1` it raises when `C[k] ≤ 0` (detected separately
by `fwdFail` below). -/

/-- One simultaneous recursion computing the scaled forward message and the
scaling factor at bin `k`. -/
def fwd (A : Fin 2 → Fin 2 → ℚ) (B : Fin 2 → ℕ → ℚ) (p0 : Fin 2 → ℚ) :
    ℕ → (Fin 2 → ℚ) × ℚ
  | 0 =>
    let u : Fin 2 → ℚ := fun j => p0 j * B j 0
    (fun j => u j / (u 0 + u 1), u 0 + u 1)
  | k + 1 =>
    let a : Fin 2 → ℚ := (fwd A B p0 k).1
    let u : Fin 2 → ℚ := fun j => (a 0 * A 0 j + a 1 * A 1 j) * B j (k + 1)
    (fun j => u j / (u 0 + u 1), u 0 + u 1)

/-- Scaling factor `C[k]`. -/
def Cfwd (A : Fin 2 → Fin 2 → ℚ) (B : Fin 2 → ℕ → ℚ) (p0 : Fin 2 → ℚ) (k : ℕ) : ℚ :=
  (fwd A B p0 k).2

/-- Scaled forward message `alpha[:, k]`. -/
def alphaFwd (A : Fin 2 → Fin 2 → ℚ) (B : Fin 2 → ℕ → ℚ) (p0 : Fin 2 → ℚ)
    (k : ℕ) : Fin 2 → ℚ :=
  (fwd A B p0 k).1

/-- First index in `start, start+1, ..., start+m-1` satisfying `p`,
mirroring the order in which the Python loops test their guards. -/
def findBad (p : ℕ → Bool) : ℕ → ℕ → Option ℕ
  | _, 0 => none
  | start, m + 1 => if p start then some start else findBad p (start + 1) m

/-- The bin at which the forward pass raises
(`for k in range(1, nbins): ... if C[k] > 0 ... else raise`), if any. -/
def fwdFail (A : Fin 2 → Fin 2 → ℚ) (B : Fin 2 → ℕ → ℚ) (p0 : Fin 2 → ℚ)
    (nbins : ℕ) : Option ℕ :=
  findBad (fun k => decide (Cfwd A B p0 k ≤ 0)) 1 (nbins - 1)

/-!  ### E-step: backward pass (`_run_hmmem`, lines 190-201)

`beta[:, nbins-1] = 1 / C[nbins-1]`; downward recursion
`beta[:, k] = A @ (beta[:, k+1] * B[:, k+1]) / C[k]`. -/

/-- `bwdAux m` is the backward message at bin `nbins - 1 - m`. -/
def bwdAux (A : Fin 2 → Fin 2 → ℚ) (B : Fin 2 → ℕ → ℚ) (C : ℕ → ℚ)
    (nbins : ℕ) : ℕ → Fin 2 → ℚ
  | 0 => fun _ => 1 / C (nbins - 1)
  | m + 1 => fun i =>
    let bn : Fin 2 → ℚ := bwdAux A B C nbins m
    let k : ℕ := nbins - 1 - (m + 1)
    (A i 0 * (bn 0 * B 0 (k + 1)) + A i 1 * (bn 1 * B 1 (k + 1))) / C k

/-- Scaled backward message `beta[:, k]`. -/
def betaBwd (A : Fin 2 → Fin 2 → ℚ) (B : Fin 2 → ℕ → ℚ) (C : ℕ → ℚ)
    (nbins k : ℕ) : Fin 2 → ℚ :=
  bwdAux A B C nbins (nbins - 1 - k)

/-!  ### E-step: pairwise posterior (`_run_hmmem`, lines 203-221) -/

/-- Pre-normalization pairwise posterior
`temp[i, j] = alpha[i, k] * (beta[j, k+1] * B[j, k+1]) * A[i, j]`. -/
def zetaRaw (A : Fin 2 → Fin 2 → ℚ) (B : Fin 2 → ℕ → ℚ)
    (al : ℕ → Fin 2 → ℚ) (bb : ℕ → Fin 2 → ℚ) (k : ℕ) :
    Fin 2 → Fin 2 → ℚ :=
  fun i j => al k i * (bb (k + 1) j * B j (k + 1)) * A i j

/-- `np.sum(temp)` over the 2×2 block. -/
def zetaSum (A : Fin 2 → Fin 2 → ℚ) (B : Fin 2 → ℕ → ℚ)
    (al : ℕ → Fin 2 → ℚ) (bb : ℕ → Fin 2 → ℚ) (k : ℕ) : ℚ :=
  zetaRaw A B al bb k 0 0 + zetaRaw A B al bb k 0 1 +
    zetaRaw A B al bb k 1 0 + zetaRaw A B al bb k 1 1

/-- Normalized pairwise posterior `zeta[:, :, k] = temp / np.sum(temp)`. -/
def zetaNorm (A : Fin 2 → Fin 2 → ℚ) (B : Fin 2 → ℕ → ℚ)
    (al : ℕ → Fin 2 → ℚ) (bb : ℕ → Fin 2 → ℚ) (k : ℕ) :
    Fin 2 → Fin 2 → ℚ :=
  fun i j => zetaRaw A B al bb k i j / zetaSum A B al bb k

/-- The bin at which the pairwise-posterior loop raises
(`for k in range(0, nbins - 1): ... if np.sum(temp) > 0 ... else raise`). -/
def zetaFail (A : Fin 2 → Fin 2 → ℚ) (B : Fin 2 → ℕ → ℚ)
    (al : ℕ → Fin 2 → ℚ) (bb : ℕ → Fin 2 → ℚ) (nbins : ℕ) : Option ℕ :=
  findBad (fun k => decide (zetaSum A B al bb k ≤ 0)) 0 (nbins - 1)

/-!  ### M-step: transition-matrix update (`_run_hmmem`, lines 230-234) -/

/-- `A = np.sum(zeta, axis=2) / np.tile(np.sum(gamma, axis=1), (1, 2))`. -/
def updateA (zeta : ℕ → Fin 2 → Fin 2 → ℚ) (gamma : ℕ → Fin 2 → ℚ)
    (nbins : ℕ) : Fin 2 → Fin 2 → ℚ :=
  fun i j =>
    (∑ k in Finset.range nbins, zeta k i j) / (∑ k in Finset.range nbins, gamma k i)

/-!  ### Newton-Raphson solver (`newton_ralphson`, lines 311-430)

Each of the three parameter blocks runs exactly `n_iter` unguarded updates
`update ← update - g(update) / g'(update)`, with
`g(u) = Σ_k w[k]·exp(lin(u, k)) - target` and
`g'(u) = Σ_k w[k]²·exp(lin(u, k))` (for `mu` the weights are all 1).
The result variable is (re)assigned inside the loop, so with `n_iter = 0`
the pre-loop value `0.0` is returned. -/

/-- One Newton update for a generic block with weights `w`, linear predictor
`lin`, and observed target `target`. -/
def nrStep (rexp : ℚ → ℚ) (w : ℕ → ℚ) (lin : ℚ → ℕ → ℚ) (target : ℚ)
    (nbins : ℕ) (u : ℚ) : ℚ :=
  let g : ℚ := (∑ k in Finset.range nbins, w k * rexp (lin u k)) - target
  let gprime : ℚ := ∑ k in Finset.range nbins, w k * w k * rexp (lin u k)
  u - g / gprime

/-- `n` passes of the loop body `update = f update; result = update`, carried
as the pair `(update, result)`. -/
def nrLoop (f : ℚ → ℚ) : ℕ → ℚ × ℚ → ℚ × ℚ
  | 0, p => p
  | n + 1, p => nrLoop f n (f p.1, f p.1)

/-- `newton_ralphson`: block-coordinate Newton solve of `mu`, then `alphaa`,
then `betaa`.  The leading `assert bin_spike_count.shape[1] > 1` (horizontal
shape check, `shape[0] = 1`) is modelled as an error exit.  The fixed start
offsets are `0.01 * 0.1`, `0.01 * 0.2`, `0.01 * 0.3`. -/
def newton_ralphson (rexp : ℚ → ℚ) (count : ℕ → ℕ) (Z : ℕ → ℚ) (hist : ℕ → ℕ)
    (init_alphaa init_betaa init_mu : ℚ) (n_iter nbins : ℕ) :
    Except Unit (ℚ × ℚ × ℚ) :=
  if nbins ≤ 1 then .error () else
  let temp0 : ℚ := ∑ k in Finset.range nbins, (count k : ℚ)
  let muP : ℚ × ℚ := nrLoop
    (nrStep rexp (fun _ => 1)
      (fun u k => u + init_alphaa * Z k + init_betaa * (hist k : ℚ)) temp0 nbins)
    n_iter (init_mu + 1 / 100 * (1 / 10), 0)
  let mu : ℚ := muP.2
  let temp1 : ℚ := ∑ k in Finset.range nbins, (count k : ℚ) * Z k
  let alP : ℚ × ℚ := nrLoop
    (nrStep rexp Z
      (fun u k => mu + u * Z k + init_betaa * (hist k : ℚ)) temp1 nbins)
    n_iter (init_alphaa + 1 / 100 * (2 / 10), 0)
  let alphaa : ℚ := alP.2
  let temp2 : ℚ := ∑ k in Finset.range nbins, (count k : ℚ) * (hist k : ℚ)
  let beP : ℚ × ℚ := nrLoop
    (nrStep rexp (fun k => (hist k : ℚ))
      (fun u k => mu + alphaa * Z k + u * (hist k : ℚ)) temp2 nbins)
    n_iter (init_betaa + 1 / 100 * (3 / 10), 0)
  .ok (alphaa, beP.2, mu)

/-!  ### EM driver (`_run_hmmem`, lines 120-268) -/

/-- Error exits of `_run_hmmem`: the two `raise ValueError` sites (reporting
EM step `t` and bin index `k`) and the `assert` in `newton_ralphson`. -/
inductive HErr where
  | alphaScaling (t k : ℕ)
  | zetaScaling (t k : ℕ)
  | assertFail
deriving DecidableEq

/-- Mutable state of the EM loop. -/
structure EMState where
  A : Fin 2 → Fin 2 → ℚ
  alphaa : ℚ
  betaa : ℚ
  mu : ℚ
  B : Fin 2 → ℕ → ℚ
  p0 : Fin 2 → ℚ
  gamma : ℕ → Fin 2 → ℚ
  zeta : ℕ → Fin 2 → Fin 2 → ℚ
  logP : ℕ → ℚ
  diff : ℚ

/-- One iteration of the EM loop body (E-step, M-step, emission refresh,
convergence bookkeeping), at loop counter `t`. -/
def emIter (rexp rlog : ℚ → ℚ) (count hist : ℕ → ℕ) (nbins n_iter_NR t : ℕ)
    (s : EMState) : Except HErr EMState :=
  let C : ℕ → ℚ := Cfwd s.A s.B s.p0
  let al : ℕ → Fin 2 → ℚ := alphaFwd s.A s.B s.p0
  match fwdFail s.A s.B s.p0 nbins with
  | some k => .error (.alphaScaling t k)
  | none =>
    let logPt : ℚ := ∑ k in Finset.range nbins, rlog (C k + EPS)
    let bb : ℕ → Fin 2 → ℚ := betaBwd s.A s.B C nbins
    match zetaFail s.A s.B al bb nbins with
    | some k => .error (.zetaScaling t k)
    | none =>
      let zeta' : ℕ → Fin 2 → Fin 2 → ℚ := fun k =>
        if k < nbins - 1 then zetaNorm s.A s.B al bb k else s.zeta k
      let gamma' : ℕ → Fin 2 → ℚ := fun k =>
        if k < nbins - 1 then fun i => zeta' k i 0 + zeta' k i 1 else s.gamma k
      let Z : ℕ → ℚ := fun k => stateVal 0 * gamma' k 0 + stateVal 1 * gamma' k 1
      let p0' : Fin 2 → ℚ := fun i => gamma' 0 i
      let A' : Fin 2 → Fin 2 → ℚ := updateA zeta' gamma' nbins
      match newton_ralphson rexp count Z hist s.alphaa s.betaa s.mu n_iter_NR nbins with
      | .error _ => .error .assertFail
      | .ok (alphaa', betaa', mu') =>
        let lam' : Fin 2 → ℕ → ℚ := binLambda rexp mu' alphaa' betaa' hist
        let B' : Fin 2 → ℕ → ℚ := emissionB rexp lam' count
        let logP' : ℕ → ℚ := fun i => if i = t then logPt else s.logP i
        let diff' : ℚ := if 1 < t then logP' t - logP' (t - 1) else s.diff
        .ok { A := A', alphaa := alphaa', betaa := betaa', mu := mu', B := B',
              p0 := p0', gamma := gamma', zeta := zeta', logP := logP',
              diff := diff' }

/-- The `while t < (n_iter_EM - 1) and diff_log_P > 0` loop, with
`fuel = (n_iter_EM - 1) - t` remaining budgeted iterations.  Returns the
final state together with the final value of the counter `t`. -/
def emLoop (rexp rlog : ℚ → ℚ) (count hist : ℕ → ℕ) (nbins n_iter_NR : ℕ) :
    ℕ → ℕ → EMState → Except HErr (EMState × ℕ)
  | 0, t, s => .ok (s, t)
  | fuel + 1, t, s =>
    if 0 < s.diff then
      match emIter rexp rlog count hist nbins n_iter_NR t s with
      | .error e => .error e
      | .ok s' => emLoop rexp rlog count hist nbins n_iter_NR fuel (t + 1) s'
    else .ok (s, t)

/-- State before the first EM iteration (`_run_hmmem`, lines 120-158):
uniform `p0`, zero-initialized `gamma`/`zeta` tables, `diff_log_P = 10`,
`log_P` an uninitialized (`np.empty`) array modelled by arbitrary initial
contents `logP0`. -/
def initState (rexp : ℚ → ℚ) (count hist : ℕ → ℕ)
    (init_A : Fin 2 → Fin 2 → ℚ) (init_alphaa init_betaa init_mu : ℚ)
    (logP0 : ℕ → ℚ) : EMState :=
  { A := init_A, alphaa := init_alphaa, betaa := init_betaa, mu := init_mu,
    B := emissionB rexp (binLambda rexp init_mu init_alphaa init_betaa hist) count,
    p0 := fun _ => 1 / 2,
    gamma := fun _ _ => 0, zeta := fun _ _ _ => 0, logP := logP0, diff := 10 }

/-!  ### Viterbi decoder (`_run_hmmem`, lines 274-302)

`temp = (delta[:, t-1] @ ones(1, 2) + logA)ᵗ`, i.e.
`temp[j, i] = delta[i, t-1] + logA[i, j]`; `psi[:, t]` is the row-wise
`np.argmax` (first maximum, hence lowest index on ties) and `delta[:, t]` the
row-wise maximum plus `logB[:, t]`. -/

/-- `np.argmax` over a length-2 vector: index of the first maximum. -/
def argmax2 (f : Fin 2 → ℚ) : Fin 2 :=
  if f 0 < f 1 then 1 else 0

/-- Viterbi value table `delta`. -/
def vdelta (logA : Fin 2 → Fin 2 → ℚ) (logB : Fin 2 → ℕ → ℚ)
    (logp0 : Fin 2 → ℚ) : ℕ → Fin 2 → ℚ
  | 0 => fun j => logp0 j + logB j 0
  | t + 1 => fun j =>
    max (vdelta logA logB logp0 t 0 + logA 0 j)
        (vdelta logA logB logp0 t 1 + logA 1 j) + logB j (t + 1)

/-- Viterbi predecessor table `psi` (meaningful for columns `t ≥ 1`). -/
def vpsi (logA : Fin 2 → Fin 2 → ℚ) (logB : Fin 2 → ℕ → ℚ)
    (logp0 : Fin 2 → ℚ) (t : ℕ) : Fin 2 → Fin 2 :=
  fun j => argmax2 (fun i => vdelta logA logB logp0 (t - 1) i + logA i j)

/-- Backtracking: `vSAux m` is the decoded state at bin `nbins - 1 - m`
(`S[0, t] = psi[S[0, t+1], t+1]` downward from `argmax(delta[:, nbins-1])`). -/
def vSAux (logA : Fin 2 → Fin 2 → ℚ) (logB : Fin 2 → ℕ → ℚ)
    (logp0 : Fin 2 → ℚ) (nbins : ℕ) : ℕ → Fin 2
  | 0 => argmax2 (vdelta logA logB logp0 (nbins - 1))
  | m + 1 => vpsi logA logB logp0 (nbins - 1 - m) (vSAux logA logB logp0 nbins m)

/-- The decoded path and the normalized log-likelihood
`log_L = delta[S[0, -1], -1] / nbins`. -/
def vitDecode (logA : Fin 2 → Fin 2 → ℚ) (logB : Fin 2 → ℕ → ℚ)
    (logp0 : Fin 2 → ℚ) (nbins : ℕ) : (ℕ → Fin 2) × ℚ :=
  (fun t => vSAux logA logB logp0 nbins (nbins - 1 - t),
   vdelta logA logB logp0 (nbins - 1) (argmax2 (vdelta logA logB logp0 (nbins - 1)))
     / (nbins : ℚ))

/-!  ### Full `_run_hmmem` -/

/-- The tuple returned by `_run_hmmem`
(`S, prob_S, alphaa, betaa, mu, A, B, p0, log_L, log_P`); `prob_S` and
`p0`-related tables are indexed bin-first here. -/
structure HmmResult where
  S : ℕ → Fin 2
  prob_S : ℕ → Fin 2 → ℚ
  alphaa : ℚ
  betaa : ℚ
  mu : ℚ
  A : Fin 2 → Fin 2 → ℚ
  B : Fin 2 → ℕ → ℚ
  p0 : Fin 2 → ℚ
  log_L : ℚ
  log_P : List ℚ

/-- `_run_hmmem`: EM loop followed by the Viterbi decode.  After the loop the
code rebinds `p0 = gamma[:, 0:1]`, feeds `log(p0 + EPS)` to Viterbi, and
returns `np.exp(p0)` (line 304) as the `p0` output.  `log_P` is returned as
the whole length-`n_iter_EM` array. -/
def runHmmemCore (rexp rlog : ℚ → ℚ) (count hist : ℕ → ℕ)
    (init_A : Fin 2 → Fin 2 → ℚ) (init_alphaa init_betaa init_mu : ℚ)
    (n_iter_EM n_iter_NR nbins : ℕ) (logP0 : ℕ → ℚ) : Except HErr HmmResult :=
  match emLoop rexp rlog count hist nbins n_iter_NR (n_iter_EM - 1) 0
      (initState rexp count hist init_A init_alphaa init_betaa init_mu logP0) with
  | .error e => .error e
  | .ok (s, _) =>
    let p0g : Fin 2 → ℚ := fun i => s.gamma 0 i
    let logp0 : Fin 2 → ℚ := fun i => rlog (p0g i + EPS)
    let logA : Fin 2 → Fin 2 → ℚ := fun i j => rlog (s.A i j + EPS)
    let logB : Fin 2 → ℕ → ℚ := fun i k => rlog (s.B i k + EPS)
    let vd : (ℕ → Fin 2) × ℚ := vitDecode logA logB logp0 nbins
    .ok { S := vd.1, prob_S := s.gamma, alphaa := s.alphaa, betaa := s.betaa,
          mu := s.mu, A := s.A, B := s.B,
          p0 := fun i => rexp (p0g i), log_L := vd.2,
          log_P := (List.range n_iter_EM).map s.logP }

/-- Total extractor for concrete evaluations of `Except` results. -/
def getRes (e : Except HErr HmmResult) : HmmResult :=
  match e with
  | .ok r => r
  | .error _ =>
    { S := fun _ => 0, prob_S := fun _ _ => 0, alphaa := 0, betaa := 0, mu := 0,
      A := fun _ _ => 0, B := fun _ _ => 0, p0 := fun _ => 0, log_L := 0,
      log_P := [] }

/-- Final counter value of a successful EM loop. -/
def emLoopT (e : Except HErr (EMState × ℕ)) : Option ℕ :=
  match e with
  | .ok p => some p.2
  | .error _ => none

/-- Final state of a successful EM loop (arbitrary placeholder on error). -/
def emLoopS (e : Except HErr (EMState × ℕ)) (dflt : EMState) : EMState :=
  match e with
  | .ok p => p.1
  | .error _ => dflt

/-- Convergence-test invariant: `diff_log_P` keeps its initial value `10`
until the end of iteration `t = 2` and from then on equals the difference of
the last two written log-likelihood entries. -/
def emInv (t : ℕ) (s : EMState) : Prop :=
  (t < 3 → s.diff = 10) ∧ (3 ≤ t → s.diff = s.logP (t - 1) - s.logP (t - 2))

/-!  ### Concrete instances used for counterexamples and witnesses

`cRexp1`/`cRlog1` are constant-1 exponential and identity logarithm
stand-ins; with all-zero counts and all-one history, one EM iteration
computes uniform posteriors and completes without numerical failure.
`cRexp0` models a float `exp` that underflows to `0` everywhere, which with
positive counts makes every emission likelihood vanish. -/

/-- Constant-1 stand-in for the float `exp` of the run. -/
def cRexp1 : ℚ → ℚ := fun _ => 1

/-- Identity stand-in for the float `log` of the run. -/
def cRlog1 : ℚ → ℚ := fun q => q

/-- All-underflowed stand-in for the float `exp` of the run. -/
def cRexp0 : ℚ → ℚ := fun _ => 0

/-- All-zero spike counts. -/
def cCount0 : ℕ → ℕ := fun _ => 0

/-- All-one spike counts. -/
def cCount1 : ℕ → ℕ := fun _ => 1

/-- All-one history counts. -/
def cHist1 : ℕ → ℕ := fun _ => 1

/-- Uniform initial transition matrix. -/
def cA : Fin 2 → Fin 2 → ℚ := fun _ _ => 1 / 2

/-- Recognizable "uninitialized memory" contents for the `log_P` array. -/
def cLogP0 : ℕ → ℚ := fun _ => 55

/-- Initial EM state of the benign concrete run
(`nbins = 2`, zero counts, unit history). -/
def cInit : EMState := initState cRexp1 cCount0 cHist1 cA 0 0 0 cLogP0

/-- Initial EM state of the underflowing concrete run
(`nbins = 2`, unit counts, all emission likelihoods zero). -/
def cInitU : EMState := initState cRexp0 cCount1 cHist1 cA 0 0 0 cLogP0

/-- The benign concrete run of `_run_hmmem` with `n_iter_EM = 2`
(one completed EM iteration). -/
def cRun : Except HErr HmmResult :=
  runHmmemCore cRexp1 cRlog1 cCount0 cHist1 cA 0 0 0 2 1 2 cLogP0

/-- Degenerate pairwise posterior with all mass in row 1 of the single
written block (`nbins = 2`). -/
def cZetaDeg : ℕ → Fin 2 → Fin 2 → ℚ :=
  fun k i j => if k = 0 ∧ i = 1 ∧ j = 1 then 1 else 0

/-- Marginal posterior derived from `cZetaDeg` by row sums. -/
def cGammaDeg : ℕ → Fin 2 → ℚ :=
  fun k i => if k = 0 ∧ i = 1 then 1 else 0

/-- Uniform pairwise posterior with one written block (`nbins = 2`). -/
def cZetaU : ℕ → Fin 2 → Fin 2 → ℚ := fun k _ _ => if k = 0 then 1 / 4 else 0

/-- Marginal posterior derived from `cZetaU` by row sums. -/
def cGammaU : ℕ → Fin 2 → ℚ := fun k _ => if k = 0 then 1 / 2 else 0

/-- Constant expected-state sequence used for the solver witness. -/
def cZhalf : ℕ → ℚ := fun _ => 1 / 2

/-- All-zero log transition matrix (every Viterbi comparison ties). -/
def cLogA : Fin 2 → Fin 2 → ℚ := fun _ _ => 0

/-- All-zero log emission table. -/
def cLogB : Fin 2 → ℕ → ℚ := fun _ _ => 0

/-- All-zero log initial distribution. -/
def cLogp0 : Fin 2 → ℚ := fun _ => 0

/-- The EM loop of the benign concrete run (`n_iter_EM = 2`). -/
def cLoop : Except HErr (EMState × ℕ) :=
  emLoop cRexp1 cRlog1 cCount0 cHist1 2 1 (2 - 1) 0 cInit

/-- The final EM state of the benign concrete run. -/
def cS : EMState := emLoopS cLoop cInit

/-!  ## Helper lemmas -/

theorem historySeq_eq_Ico (W : ℕ) (count : ℕ → ℕ) (k : ℕ) :
    historySeq W count k = ∑ j in Finset.Ico (k - W) k, count j := by
  unfold historySeq rollingSum
  have h1 : k + 1 - (W + 1) = k - W := by omega
  rw [h1, ← Nat.Ico_succ_right, Finset.sum_Ico_succ_top (Nat.sub_le k W),
    Nat.add_sub_cancel]

theorem nrLoop_fst (f : ℚ → ℚ) (n : ℕ) (p : ℚ × ℚ) :
    (nrLoop f n p).1 = f^[n] p.1 := by
  induction n generalizing p with
  | zero => rfl
  | succ n ih =>
    rw [nrLoop, ih, Function.iterate_succ_apply]

theorem nrLoop_snd (f : ℚ → ℚ) (n : ℕ) (p : ℚ × ℚ) (hn : 1 ≤ n) :
    (nrLoop f n p).2 = f^[n] p.1 := by
  induction n generalizing p with
  | zero => omega
  | succ n ih =>
    rw [nrLoop]
    rcases Nat.eq_zero_or_pos n with h0 | h0
    · subst h0; rfl
    · rw [ih _ h0, Function.iterate_succ_apply]

theorem argmax2_val (f : Fin 2 → ℚ) : f (argmax2 f) = max (f 0) (f 1) := by
  unfold argmax2
  split
  · exact (max_eq_right (le_of_lt (by assumption))).symm
  · exact (max_eq_left (le_of_not_lt (by assumption))).symm

theorem argmax2_tie (f : Fin 2 → ℚ) (h : f 0 = f 1) : argmax2 f = 0 := by
  unfold argmax2
  rw [if_neg (by rw [h]; exact lt_irrefl _)]

theorem argmax2_eq_one (f : Fin 2 → ℚ) (h : argmax2 f = 1) : f 0 < f 1 := by
  unfold argmax2 at h
  by_contra hc
  rw [if_neg hc] at h
  exact absurd h (by decide)

theorem findBad_eq_none (p : ℕ → Bool) (s m : ℕ) :
    findBad p s m = none ↔ ∀ j, s ≤ j → j < s + m → p j = false := by
  induction m generalizing s with
  | zero =>
    simp only [findBad]
    constructor
    · intro _ j h1 h2; omega
    · intro _; trivial
  | succ m ih =>
    rw [findBad]
    split
    · rename_i hp
      constructor
      · intro h; exact absurd h (by simp)
      · intro h
        exact absurd (h s le_rfl (by omega)) (by simp [hp])
    · rename_i hp
      rw [ih]
      constructor
      · intro h j h1 h2
        rcases Nat.eq_or_lt_of_le h1 with he | hl
        · subst he; exact Bool.eq_false_iff.mpr hp
        · exact h j hl (by omega)
      · intro h j h1 h2
        exact h j (by omega) (by omega)

theorem findBad_eq_some (p : ℕ → Bool) (s m k : ℕ) :
    findBad p s m = some k ↔
      s ≤ k ∧ k < s + m ∧ p k = true ∧ ∀ j, s ≤ j → j < k → p j = false := by
  induction m generalizing s with
  | zero =>
    simp only [findBad]
    constructor
    · intro h; exact absurd h (by simp)
    · intro ⟨h1, h2, _⟩; omega
  | succ m ih =>
    rw [findBad]
    split
    · rename_i hp
      constructor
      · intro h
        cases h
        exact ⟨le_rfl, by omega, hp, fun j h1 h2 => by omega⟩
      · intro ⟨h1, _, _, h4⟩
        rcases Nat.eq_or_lt_of_le h1 with he | hl
        · rw [he]
        · exact absurd (h4 s le_rfl hl) (by simp [hp])
    · rename_i hp
      rw [ih]
      constructor
      · intro ⟨h1, h2, h3, h4⟩
        refine ⟨by omega, by omega, h3, fun j hj1 hj2 => ?_⟩
        rcases Nat.eq_or_lt_of_le hj1 with he | hl
        · subst he; exact Bool.eq_false_iff.mpr hp
        · exact h4 j hl hj2
      · intro ⟨h1, h2, h3, h4⟩
        have hsk : s ≠ k := by
          intro he; subst he; exact hp (by rw [h3])
        exact ⟨by omega, by omega, h3, fun j hj1 hj2 => h4 j (by omega) hj2⟩

/-!  ## Spec-shaped description of the Newton-Raphson solver

The spec describes the solver as three sequential blocks of exactly `n_iter`
unguarded Newton updates, started from the previous parameter value plus the
fixed offsets `0.001`, `0.002`, `0.003`, with weights `1`, `Z[k]`,
`history[k]`, where the `alphaa` block uses the updated `mu` and the `betaa`
block uses both updated `mu` and `alphaa`.  The following three definitions
transcribe that description; the refinement theorem for C5 compares them
with `newton_ralphson`. -/

/-- Spec-shaped final `mu`: `n` Newton updates with unit weights from
`init_mu + 0.001`, holding the previous `alphaa`, `betaa` fixed. -/
def nrMuStar (rexp : ℚ → ℚ) (count : ℕ → ℕ) (Z : ℕ → ℚ) (hist : ℕ → ℕ)
    (ia ib im : ℚ) (n nbins : ℕ) : ℚ :=
  (nrStep rexp (fun _ => 1) (fun u k => u + ia * Z k + ib * (hist k : ℚ))
    (∑ k in Finset.range nbins, (count k : ℚ)) nbins)^[n] (im + 1 / 1000)

/-- Spec-shaped final `alphaa`: `n` Newton updates with weights `Z[k]` from
`init_alphaa + 0.002`, using the updated `mu` and the previous `betaa`. -/
def nrAlphaStar (rexp : ℚ → ℚ) (count : ℕ → ℕ) (Z : ℕ → ℚ) (hist : ℕ → ℕ)
    (ia ib im : ℚ) (n nbins : ℕ) : ℚ :=
  (nrStep rexp Z
    (fun u k => nrMuStar rexp count Z hist ia ib im n nbins + u * Z k + ib * (hist k : ℚ))
    (∑ k in Finset.range nbins, (count k : ℚ) * Z k) nbins)^[n] (ia + 2 / 1000)

/-- Spec-shaped final `betaa`: `n` Newton updates with weights `history[k]`
from `init_betaa + 0.003`, using both updated `mu` and `alphaa`. -/
def nrBetaStar (rexp : ℚ → ℚ) (count : ℕ → ℕ) (Z : ℕ → ℚ) (hist : ℕ → ℕ)
    (ia ib im : ℚ) (n nbins : ℕ) : ℚ :=
  (nrStep rexp (fun k => (hist k : ℚ))
    (fun u k => nrMuStar rexp count Z hist ia ib im n nbins
      + nrAlphaStar rexp count Z hist ia ib im n nbins * Z k + u * (hist k : ℚ))
    (∑ k in Finset.range nbins, (count k : ℚ) * (hist k : ℚ)) nbins)^[n] (ib + 3 / 1000)

/-- Unconditional form of `nrLoop_snd`. -/
theorem nrLoop_snd_eq (f : ℚ → ℚ) (n : ℕ) (p : ℚ × ℚ) :
    (nrLoop f n p).2 = if n = 0 then p.2 else f^[n] p.1 := by
  rcases Nat.eq_zero_or_pos n with h0 | h0
  · subst h0; rfl
  · rw [if_neg (by omega), nrLoop_snd _ _ _ h0]

/-- C5: in every call to `newton_ralphson` (with at least one Newton pass and
the shape assertion satisfied), the three emission parameters are solved
sequentially in block-coordinate fashion: `mu` first (unit weights, previous
`alphaa`/`betaa` fixed), then `alphaa` (weights `Z[k]`, updated `mu`), then
`betaa` (weights `history[k]`, updated `mu` and `alphaa`), each via exactly
`n_iter` unguarded Newton updates `u ← u - g(u)/gp(u)` starting from the
previous value plus the constant offsets `0.001`, `0.002`, `0.003`. -/
theorem newton_ralphson_block_coordinate (rexp : ℚ → ℚ) (count : ℕ → ℕ)
    (Z : ℕ → ℚ) (hist : ℕ → ℕ) (ia ib im : ℚ) (n nbins : ℕ)
    (hn : 1 ≤ n) (hb : 1 < nbins) :
    newton_ralphson rexp count Z hist ia ib im n nbins =
      .ok (nrAlphaStar rexp count Z hist ia ib im n nbins,
           nrBetaStar rexp count Z hist ia ib im n nbins,
           nrMuStar rexp count Z hist ia ib im n nbins) := by
  have hne : ¬ n = 0 := by omega
  simp only [newton_ralphson, if_neg (show ¬ nbins ≤ 1 by omega), nrLoop_snd_eq,
    eq_false hne, if_false]
  simp only [nrBetaStar, nrAlphaStar, nrMuStar]
  norm_num

theorem newton_ralphson_block_coordinate_witness :
    newton_ralphson cRexp1 cCount0 cZhalf cHist1 0 0 0 1 2 =
      .ok (nrAlphaStar cRexp1 cCount0 cZhalf cHist1 0 0 0 1 2,
           nrBetaStar cRexp1 cCount0 cZhalf cHist1 0 0 0 1 2,
           nrMuStar cRexp1 cCount0 cZhalf cHist1 0 0 0 1 2) :=
  newton_ralphson_block_coordinate cRexp1 cCount0 cZhalf cHist1 0 0 0 1 2
    (by norm_num) (by norm_num)

/-- Backtracking step of the decoded path. -/
theorem vSAux_step (logA : Fin 2 → Fin 2 → ℚ) (logB : Fin 2 → ℕ → ℚ)
    (logp0 : Fin 2 → ℚ) (n t : ℕ) (ht : t < n - 1) :
    vSAux logA logB logp0 n (n - 1 - t) =
      vpsi logA logB logp0 (t + 1) (vSAux logA logB logp0 n (n - 1 - (t + 1))) := by
  have h1 : n - 1 - t = (n - 1 - (t + 1)) + 1 := by omega
  rw [h1, vSAux]
  have h2 : n - 1 - (n - 1 - (t + 1)) = t + 1 := by omega
  rw [h2]

/-- C6: the Viterbi decoder works entirely in the log domain:
`delta[state, k] = max_i (delta[i, k-1] + logA[i, state]) + logB[state, k]`
with the maximizing predecessor recorded in `psi`, ties in every argmax
resolving to state 0; the path is reconstructed by backtracking from
`argmax(delta[:, n-1])`; and the reported normalized log-likelihood is
`delta[final_state, n-1] / n`. -/
theorem viterbi_log_domain (logA : Fin 2 → Fin 2 → ℚ) (logB : Fin 2 → ℕ → ℚ)
    (logp0 : Fin 2 → ℚ) (n : ℕ) (_hn : 1 ≤ n) :
    (∀ j, vdelta logA logB logp0 0 j = logp0 j + logB j 0) ∧
    (∀ t j, 1 ≤ t → t < n →
      vdelta logA logB logp0 t j =
        max (vdelta logA logB logp0 (t - 1) 0 + logA 0 j)
            (vdelta logA logB logp0 (t - 1) 1 + logA 1 j) + logB j t) ∧
    (∀ t j, 1 ≤ t →
      vdelta logA logB logp0 (t - 1) (vpsi logA logB logp0 t j)
          + logA (vpsi logA logB logp0 t j) j =
        max (vdelta logA logB logp0 (t - 1) 0 + logA 0 j)
            (vdelta logA logB logp0 (t - 1) 1 + logA 1 j)) ∧
    (∀ t j, 1 ≤ t →
      vdelta logA logB logp0 (t - 1) 0 + logA 0 j =
          vdelta logA logB logp0 (t - 1) 1 + logA 1 j →
        vpsi logA logB logp0 t j = 0) ∧
    ((vitDecode logA logB logp0 n).1 (n - 1) =
      argmax2 (vdelta logA logB logp0 (n - 1))) ∧
    (vdelta logA logB logp0 (n - 1) ((vitDecode logA logB logp0 n).1 (n - 1)) =
      max (vdelta logA logB logp0 (n - 1) 0) (vdelta logA logB logp0 (n - 1) 1)) ∧
    (vdelta logA logB logp0 (n - 1) 0 = vdelta logA logB logp0 (n - 1) 1 →
      (vitDecode logA logB logp0 n).1 (n - 1) = 0) ∧
    (∀ t, t < n - 1 →
      (vitDecode logA logB logp0 n).1 t =
        vpsi logA logB logp0 (t + 1) ((vitDecode logA logB logp0 n).1 (t + 1))) ∧
    ((vitDecode logA logB logp0 n).2 =
      vdelta logA logB logp0 (n - 1) ((vitDecode logA logB logp0 n).1 (n - 1)) / n) := by
  have hS : (vitDecode logA logB logp0 n).1 (n - 1) =
      argmax2 (vdelta logA logB logp0 (n - 1)) := by
    show vSAux logA logB logp0 n (n - 1 - (n - 1)) = _
    rw [Nat.sub_self, vSAux]
  refine ⟨fun j => rfl, ?_, ?_, ?_, hS, ?_, ?_, ?_, ?_⟩
  · intro t j ht _
    obtain ⟨u, rfl⟩ : ∃ u, t = u + 1 := ⟨t - 1, by omega⟩
    simp only [vdelta, Nat.add_sub_cancel]
  · intro t j _
    exact argmax2_val (fun i => vdelta logA logB logp0 (t - 1) i + logA i j)
  · intro t j _ h
    exact argmax2_tie _ h
  · rw [hS]
    exact argmax2_val (vdelta logA logB logp0 (n - 1))
  · intro h
    rw [hS]
    exact argmax2_tie _ h
  · intro t ht
    exact vSAux_step logA logB logp0 n t ht
  · rw [hS]; rfl

theorem viterbi_log_domain_witness :
    (vitDecode cLogA cLogB cLogp0 2).1 0 =
      vpsi cLogA cLogB cLogp0 1 ((vitDecode cLogA cLogB cLogp0 2).1 1) ∧
    (vitDecode cLogA cLogB cLogp0 2).2 =
      vdelta cLogA cLogB cLogp0 (2 - 1)
        ((vitDecode cLogA cLogB cLogp0 2).1 (2 - 1)) / ((2 : ℕ) : ℚ) ∧
    (vitDecode cLogA cLogB cLogp0 2).1 (2 - 1) = 0 := by
  have h := viterbi_log_domain cLogA cLogB cLogp0 2 (by norm_num)
  refine ⟨h.2.2.2.2.2.2.2.1 0 (by norm_num), h.2.2.2.2.2.2.2.2, ?_⟩
  refine h.2.2.2.2.2.2.1 ?_
  norm_num [vdelta, cLogA, cLogB, cLogp0]

/-- C7: the history sequence entry at bin `k` is the sum of the counts in the
`min(k, W)` bins immediately preceding (and excluding) bin `k`; hence it is
all-zero for an all-zero count sequence, and equals `min(k, W) · c` for a
constant count sequence `c`. -/
theorem historySeq_trailing_window (W : ℕ) (count : ℕ → ℕ) (k c : ℕ) :
    historySeq W count k = ∑ j in Finset.Ico (k - min k W) k, count j ∧
    (Finset.Ico (k - min k W) k).card = min k W ∧
    historySeq W (fun _ => 0) k = 0 ∧
    historySeq W (fun _ => c) k = min k W * c := by
  have hmin : k - min k W = k - W := by omega
  have hIco : historySeq W count k = ∑ j in Finset.Ico (k - min k W) k, count j := by
    rw [historySeq_eq_Ico, hmin]
  have hcard : (Finset.Ico (k - min k W) k).card = min k W := by
    rw [Nat.card_Ico]; omega
  refine ⟨hIco, hcard, ?_, ?_⟩
  · rw [historySeq_eq_Ico]
    exact Finset.sum_const_nat (fun _ _ => rfl)
  · rw [historySeq_eq_Ico, ← hmin, Finset.sum_const, hcard, smul_eq_mul]

/-- C4 (amended): the transition matrix produced by the M-step update
`A = Σ_k zeta[:,:,k] / (row occupancy Σ_k gamma[:,k])` is row-stochastic with
entries in `[0, 1]`, given that the E-step's written `zeta` blocks are
non-negative and normalized to sum to 1, that `gamma` is derived from them by
row sums, that the never-written last slots are zero, and — additionally to
the claim — that each row's total occupancy is positive. -/
theorem updateA_row_stochastic (zeta : ℕ → Fin 2 → Fin 2 → ℚ)
    (gamma : ℕ → Fin 2 → ℚ) (nbins : ℕ)
    (hb : 1 ≤ nbins)
    (hnn : ∀ k i j, k < nbins - 1 → 0 ≤ zeta k i j)
    (hder : ∀ k i, k < nbins - 1 → gamma k i = zeta k i 0 + zeta k i 1)
    (hlastz : ∀ i j, zeta (nbins - 1) i j = 0)
    (hlastg : ∀ i, gamma (nbins - 1) i = 0)
    (hocc : ∀ i, 0 < ∑ k in Finset.range nbins, gamma k i) :
    (∀ i, updateA zeta gamma nbins i 0 + updateA zeta gamma nbins i 1 = 1) ∧
    (∀ i j, 0 ≤ updateA zeta gamma nbins i j ∧ updateA zeta gamma nbins i j ≤ 1) := by
  have hz_le_g : ∀ i j k, k < nbins → zeta k i j ≤ gamma k i := by
    intro i j k hk
    rcases Nat.lt_or_ge k (nbins - 1) with hk1 | hk1
    · rw [hder k i hk1]
      fin_cases j
      · exact le_add_of_nonneg_right (hnn k i 1 hk1)
      · exact le_add_of_nonneg_left (hnn k i 0 hk1)
    · have hke : k = nbins - 1 := by omega
      subst hke
      rw [hlastz i j, hlastg i]
  have hz_nn : ∀ i j k, k < nbins → 0 ≤ zeta k i j := by
    intro i j k hk
    rcases Nat.lt_or_ge k (nbins - 1) with hk1 | hk1
    · exact hnn k i j hk1
    · have hke : k = nbins - 1 := by omega
      subst hke
      rw [hlastz i j]
  constructor
  · intro i
    unfold updateA
    rw [div_add_div_same]
    rw [show (∑ k in Finset.range nbins, zeta k i 0) + ∑ k in Finset.range nbins, zeta k i 1
        = ∑ k in Finset.range nbins, gamma k i from ?_]
    · exact div_self (ne_of_gt (hocc i))
    · rw [← Finset.sum_add_distrib]
      refine Finset.sum_congr rfl fun k hk => ?_
      have hk' : k < nbins := Finset.mem_range.mp hk
      rcases Nat.lt_or_ge k (nbins - 1) with hk1 | hk1
      · exact (hder k i hk1).symm
      · have hke : k = nbins - 1 := by omega
        subst hke
        rw [hlastz i 0, hlastz i 1, hlastg i, add_zero]
  · intro i j
    unfold updateA
    constructor
    · exact div_nonneg
        (Finset.sum_nonneg fun k hk => hz_nn i j k (Finset.mem_range.mp hk))
        (le_of_lt (hocc i))
    · rw [div_le_one (hocc i)]
      exact Finset.sum_le_sum fun k hk => hz_le_g i j k (Finset.mem_range.mp hk)

theorem updateA_row_stochastic_witness :
    updateA cZetaU cGammaU 2 0 0 + updateA cZetaU cGammaU 2 0 1 = 1 ∧
    0 ≤ updateA cZetaU cGammaU 2 0 0 ∧ updateA cZetaU cGammaU 2 0 0 ≤ 1 := by
  have h := updateA_row_stochastic cZetaU cGammaU 2 (by norm_num)
    (fun k i j hk => by unfold cZetaU; split <;> norm_num)
    (fun k i hk => by
      have hk0 : k = 0 := by omega
      subst hk0
      norm_num [cZetaU, cGammaU])
    (fun i j => by norm_num [cZetaU])
    (fun i => by norm_num [cGammaU])
    (fun i => by norm_num [cGammaU, Finset.sum_range_succ])
  exact ⟨h.1 0, (h.2 0 0).1, (h.2 0 0).2⟩

/-- C4 counterexample: a pairwise posterior with all mass in row 1 satisfies
the claim's stated premises (nonnegative block normalized to sum 1, `gamma`
derived by row sums, never-written last slots zero), yet the M-step division
for row 0 is 0/0 and the produced row sums to 0, not 1 — the claim omits the
necessary premise that each row's total occupancy is positive. -/
theorem updateA_degenerate_counterexample :
    cZetaDeg 0 0 0 + cZetaDeg 0 0 1 + cZetaDeg 0 1 0 + cZetaDeg 0 1 1 = 1 ∧
    (∀ i j, 0 ≤ cZetaDeg 0 i j) ∧
    (∀ k i, k < 2 - 1 → cGammaDeg k i = cZetaDeg k i 0 + cZetaDeg k i 1) ∧
    (∀ i j, cZetaDeg (2 - 1) i j = 0) ∧ (∀ i, cGammaDeg (2 - 1) i = 0) ∧
    updateA cZetaDeg cGammaDeg 2 0 0 + updateA cZetaDeg cGammaDeg 2 0 1 = 0 ∧
    (0 : ℚ) ≠ 1 := by
  refine ⟨by norm_num [cZetaDeg], fun i j => ?_, fun k i hk => ?_,
    fun i j => by norm_num [cZetaDeg], fun i => by norm_num [cGammaDeg],
    ?_, by norm_num⟩
  · unfold cZetaDeg
    split <;> norm_num
  · have hk0 : k = 0 := by omega
    subst hk0
    fin_cases i <;> norm_num [cZetaDeg, cGammaDeg]
  · norm_num [updateA, cZetaDeg, cGammaDeg, Finset.sum_range_succ]

/-- `newton_ralphson` succeeds only when the shape assertion `nbins > 1` holds. -/
theorem newton_ralphson_ok_nbins (rexp : ℚ → ℚ) (count : ℕ → ℕ) (Z : ℕ → ℚ)
    (hist : ℕ → ℕ) (ia ib im : ℚ) (n nbins : ℕ) (x : ℚ × ℚ × ℚ)
    (h : newton_ralphson rexp count Z hist ia ib im n nbins = .ok x) :
    1 < nbins := by
  by_contra hc
  rw [newton_ralphson, if_pos (by omega)] at h
  exact absurd h (by simp)

/-- Inversion of a successful EM iteration: the guards passed, and the fields
of the new state are as written by the loop body. -/
theorem emIter_ok_spec (rexp rlog : ℚ → ℚ) (count hist : ℕ → ℕ)
    (nbins n_iter_NR t : ℕ) (s s' : EMState)
    (h : emIter rexp rlog count hist nbins n_iter_NR t s = .ok s') :
    fwdFail s.A s.B s.p0 nbins = none ∧
    zetaFail s.A s.B (alphaFwd s.A s.B s.p0)
      (betaBwd s.A s.B (Cfwd s.A s.B s.p0) nbins) nbins = none ∧
    1 < nbins ∧
    (∀ k, ¬ k < nbins - 1 → ∀ i, s'.gamma k i = s.gamma k i) ∧
    (∀ k, k < nbins - 1 → ∀ i, s'.gamma k i =
      zetaNorm s.A s.B (alphaFwd s.A s.B s.p0)
        (betaBwd s.A s.B (Cfwd s.A s.B s.p0) nbins) k i 0 +
      zetaNorm s.A s.B (alphaFwd s.A s.B s.p0)
        (betaBwd s.A s.B (Cfwd s.A s.B s.p0) nbins) k i 1) ∧
    (∀ i, i ≠ t → s'.logP i = s.logP i) ∧
    (s'.logP t = ∑ k in Finset.range nbins, rlog (Cfwd s.A s.B s.p0 k + EPS)) ∧
    (s'.diff = if 1 < t then s'.logP t - s'.logP (t - 1) else s.diff) := by
  simp only [emIter] at h
  split at h
  · exact absurd h (by simp)
  · split at h
    · exact absurd h (by simp)
    · split at h
      · exact absurd h (by simp)
      · rename_i hfwd _ hzeta x a b m hnr
        have hb : 1 < nbins :=
          newton_ralphson_ok_nbins rexp count _ hist s.alphaa s.betaa s.mu
            n_iter_NR nbins _ hnr
        injection h with h
        subst h
        refine ⟨hfwd, hzeta, hb, ?_, ?_, ?_, ?_, ?_⟩
        · intro k hk i
          simp only [if_neg hk]
        · intro k hk i
          simp only [if_pos hk]
        · intro i hi
          simp only [if_neg hi]
        · simp
        · simp

/-- The forward-scaling `ValueError` branch of the E-step. -/
theorem emIter_error_alpha (rexp rlog : ℚ → ℚ) (count hist : ℕ → ℕ)
    (nbins n_iter_NR t k : ℕ) (s : EMState)
    (h : fwdFail s.A s.B s.p0 nbins = some k) :
    emIter rexp rlog count hist nbins n_iter_NR t s =
      .error (.alphaScaling t k) := by
  simp only [emIter, h]

/-- The pairwise-posterior-scaling `ValueError` branch of the E-step. -/
theorem emIter_error_zeta (rexp rlog : ℚ → ℚ) (count hist : ℕ → ℕ)
    (nbins n_iter_NR t k : ℕ) (s : EMState)
    (hf : fwdFail s.A s.B s.p0 nbins = none)
    (hz : zetaFail s.A s.B (alphaFwd s.A s.B s.p0)
      (betaBwd s.A s.B (Cfwd s.A s.B s.p0) nbins) nbins = some k) :
    emIter rexp rlog count hist nbins n_iter_NR t s =
      .error (.zetaScaling t k) := by
  simp only [emIter, hf, hz]

/-- The loop counter only increases. -/
theorem emLoop_le_T (rexp rlog : ℚ → ℚ) (count hist : ℕ → ℕ)
    (nbins n_iter_NR : ℕ) (fuel t : ℕ) (s s' : EMState) (T : ℕ)
    (h : emLoop rexp rlog count hist nbins n_iter_NR fuel t s = .ok (s', T)) :
    t ≤ T ∧ T ≤ t + fuel := by
  induction fuel generalizing t s with
  | zero =>
    rw [emLoop] at h
    injection h with h
    injection h with h1 h2
    omega
  | succ fuel ih =>
    rw [emLoop] at h
    split at h
    · split at h
      · exact absurd h (by simp)
      · rename_i s1 heq
        have := ih (t + 1) s1 h
        omega
    · injection h with h
      injection h with h1 h2
      omega

/-- The loop writes `log_P` only at indices in `[t, T)`: entries below the
starting counter and at or above the final counter keep their prior values. -/
theorem emLoop_logP_stable (rexp rlog : ℚ → ℚ) (count hist : ℕ → ℕ)
    (nbins n_iter_NR : ℕ) (fuel t : ℕ) (s s' : EMState) (T : ℕ)
    (h : emLoop rexp rlog count hist nbins n_iter_NR fuel t s = .ok (s', T)) :
    ∀ i, (i < t ∨ T ≤ i) → s'.logP i = s.logP i := by
  induction fuel generalizing t s with
  | zero =>
    rw [emLoop] at h
    injection h with h
    injection h with h1 h2
    subst h1
    intro i _
    rfl
  | succ fuel ih =>
    rw [emLoop] at h
    split at h
    · split at h
      · exact absurd h (by simp)
      · rename_i s1 heq
        intro i hi
        have hT := emLoop_le_T rexp rlog count hist nbins n_iter_NR fuel (t + 1) s1 s' T h
        have h1 : s'.logP i = s1.logP i :=
          ih (t + 1) s1 h i (by omega)
        have h2 : s1.logP i = s.logP i :=
          (emIter_ok_spec rexp rlog count hist nbins n_iter_NR t s s1 heq).2.2.2.2.2.1
            i (by omega)
        rw [h1, h2]
    · injection h with h
      injection h with h1 h2
      subst h1
      intro i _
      rfl

theorem emIter_preserves_inv (rexp rlog : ℚ → ℚ) (count hist : ℕ → ℕ)
    (nbins n_iter_NR t : ℕ) (s s' : EMState)
    (h : emIter rexp rlog count hist nbins n_iter_NR t s = .ok s')
    (hinv : emInv t s) : emInv (t + 1) s' := by
  have hspec := emIter_ok_spec rexp rlog count hist nbins n_iter_NR t s s' h
  have hdiff := hspec.2.2.2.2.2.2.2
  constructor
  · intro ht
    rw [hdiff, if_neg (by omega)]
    exact hinv.1 (by omega)
  · intro ht
    rw [hdiff, if_pos (by omega)]
    have h1 : t + 1 - 1 = t := by omega
    have h2 : t + 1 - 2 = t - 1 := by omega
    rw [h1, h2]

/-- Exit characterization of the EM loop: the final counter is bounded by the
budget, the invariant holds at exit, the loop stopped either by fuel or with
a non-positive `diff_log_P`, and every iteration it did run (from `t`, with
the convergence test active, i.e. counter at least 3) saw a strictly positive
recorded log-likelihood difference. -/
theorem emLoop_exit (rexp rlog : ℚ → ℚ) (count hist : ℕ → ℕ)
    (nbins n_iter_NR : ℕ) (fuel t : ℕ) (s s' : EMState) (T : ℕ)
    (h : emLoop rexp rlog count hist nbins n_iter_NR fuel t s = .ok (s', T))
    (hinv : emInv t s) :
    emInv T s' ∧ (T = t + fuel ∨ s'.diff ≤ 0) ∧
      (∀ u, t ≤ u → u < T → 3 ≤ u → 0 < s'.logP (u - 1) - s'.logP (u - 2)) := by
  induction fuel generalizing t s with
  | zero =>
    rw [emLoop] at h
    injection h with h
    injection h with h1 h2
    subst h1
    subst h2
    exact ⟨hinv, Or.inl rfl, fun u h1 h2 _ => by omega⟩
  | succ fuel ih =>
    rw [emLoop] at h
    split at h
    · rename_i hpos
      split at h
      · exact absurd h (by simp)
      · rename_i s1 heq
        have hT := emLoop_le_T rexp rlog count hist nbins n_iter_NR fuel (t + 1) s1 s' T h
        have hinv1 := emIter_preserves_inv rexp rlog count hist nbins n_iter_NR t s s1 heq hinv
        have hrec := ih (t + 1) s1 h hinv1
        refine ⟨hrec.1, ?_, ?_⟩
        · rcases hrec.2.1 with h1 | h1
          · exact Or.inl (by omega)
          · exact Or.inr h1
        · intro u hu1 hu2 hu3
          rcases Nat.eq_or_lt_of_le hu1 with he | hl
          · have hd : s.diff = s.logP (u - 1) - s.logP (u - 2) := by
              subst he; exact hinv.2 hu3
            have hs1 : ∀ i, i ≠ t → s1.logP i = s.logP i :=
              (emIter_ok_spec rexp rlog count hist nbins n_iter_NR t s s1 heq).2.2.2.2.2.1
            have hst : ∀ i, i < t + 1 → s'.logP i = s1.logP i := fun i hi =>
              emLoop_logP_stable rexp rlog count hist nbins n_iter_NR fuel (t + 1) s1 s' T h
                i (Or.inl hi)
            rw [hst (u - 1) (by omega), hst (u - 2) (by omega),
              hs1 (u - 1) (by omega), hs1 (u - 2) (by omega), ← hd]
            exact hpos
          · exact hrec.2.2 u (by omega) hu2 hu3
    · rename_i hneg
      injection h with h
      injection h with h1 h2
      subst h1
      subst h2
      exact ⟨hinv, Or.inr (not_lt.mp hneg), fun u h1 h2 _ => by omega⟩

/-!  ### Unfolding lemmas for the forward and backward recursions -/

theorem alphaFwd_zero (A : Fin 2 → Fin 2 → ℚ) (B : Fin 2 → ℕ → ℚ)
    (p0 : Fin 2 → ℚ) (j : Fin 2) :
    alphaFwd A B p0 0 j = p0 j * B j 0 / Cfwd A B p0 0 := rfl

theorem Cfwd_zero (A : Fin 2 → Fin 2 → ℚ) (B : Fin 2 → ℕ → ℚ)
    (p0 : Fin 2 → ℚ) :
    Cfwd A B p0 0 = p0 0 * B 0 0 + p0 1 * B 1 0 := rfl

theorem alphaFwd_succ (A : Fin 2 → Fin 2 → ℚ) (B : Fin 2 → ℕ → ℚ)
    (p0 : Fin 2 → ℚ) (k : ℕ) (j : Fin 2) :
    alphaFwd A B p0 (k + 1) j =
      (alphaFwd A B p0 k 0 * A 0 j + alphaFwd A B p0 k 1 * A 1 j) * B j (k + 1)
        / Cfwd A B p0 (k + 1) := rfl

theorem Cfwd_succ (A : Fin 2 → Fin 2 → ℚ) (B : Fin 2 → ℕ → ℚ)
    (p0 : Fin 2 → ℚ) (k : ℕ) :
    Cfwd A B p0 (k + 1) =
      (alphaFwd A B p0 k 0 * A 0 0 + alphaFwd A B p0 k 1 * A 1 0) * B 0 (k + 1) +
      (alphaFwd A B p0 k 0 * A 0 1 + alphaFwd A B p0 k 1 * A 1 1) * B 1 (k + 1) := rfl

/-- Each scaled forward column sums to 1 whenever its scaling factor is
non-zero (spec §8 "Scaling invariant"). -/
theorem alphaFwd_sum (A : Fin 2 → Fin 2 → ℚ) (B : Fin 2 → ℕ → ℚ)
    (p0 : Fin 2 → ℚ) (k : ℕ) (h : Cfwd A B p0 k ≠ 0) :
    alphaFwd A B p0 k 0 + alphaFwd A B p0 k 1 = 1 := by
  cases k with
  | zero =>
    rw [alphaFwd_zero, alphaFwd_zero, div_add_div_same, ← Cfwd_zero, div_self h]
  | succ k =>
    rw [alphaFwd_succ, alphaFwd_succ, div_add_div_same, ← Cfwd_succ, div_self h]

theorem betaBwd_last (A : Fin 2 → Fin 2 → ℚ) (B : Fin 2 → ℕ → ℚ)
    (C : ℕ → ℚ) (nbins : ℕ) (i : Fin 2) :
    betaBwd A B C nbins (nbins - 1) i = 1 / C (nbins - 1) := by
  unfold betaBwd
  rw [Nat.sub_self]
  rfl

theorem betaBwd_step (A : Fin 2 → Fin 2 → ℚ) (B : Fin 2 → ℕ → ℚ)
    (C : ℕ → ℚ) (nbins k : ℕ) (hk : k < nbins - 1) (i : Fin 2) :
    betaBwd A B C nbins k i =
      (A i 0 * (betaBwd A B C nbins (k + 1) 0 * B 0 (k + 1)) +
       A i 1 * (betaBwd A B C nbins (k + 1) 1 * B 1 (k + 1))) / C k := by
  unfold betaBwd
  have h1 : nbins - 1 - k = (nbins - 2 - k) + 1 := by omega
  rw [h1, bwdAux]
  have h2 : nbins - 1 - ((nbins - 2 - k) + 1) = k := by omega
  have h3 : nbins - 1 - (k + 1) = nbins - 2 - k := by omega
  rw [h2, h3]

/-- With `nbins ≥ 2`, a vanishing `C[0]` propagates (through the unguarded
division) to `C[1] = 0`, so the `k ≥ 1` guards exclude `C[0] = 0`. -/
theorem Cfwd_zero_ne (A : Fin 2 → Fin 2 → ℚ) (B : Fin 2 → ℕ → ℚ)
    (p0 : Fin 2 → ℚ) (nbins : ℕ) (hn : 2 ≤ nbins)
    (hC : ∀ j, 1 ≤ j → j < nbins → 0 < Cfwd A B p0 j) :
    Cfwd A B p0 0 ≠ 0 := by
  intro h0
  have e0 : alphaFwd A B p0 0 0 = 0 := by rw [alphaFwd_zero, h0, div_zero]
  have e1 : alphaFwd A B p0 0 1 = 0 := by rw [alphaFwd_zero, h0, div_zero]
  have hC1 : Cfwd A B p0 1 = 0 := by
    rw [show (1 : ℕ) = 0 + 1 from rfl, Cfwd_succ, e0, e1]
    ring
  exact absurd hC1 (ne_of_gt (hC 1 le_rfl (by omega)))

/-- The scaled forward/backward dot product at bin `nbins - 1 - m` equals
the reciprocal scaling factor (exact-arithmetic forward-backward identity). -/
theorem alphaBeta_dot (A : Fin 2 → Fin 2 → ℚ) (B : Fin 2 → ℕ → ℚ)
    (p0 : Fin 2 → ℚ) (nbins : ℕ) (hn : 2 ≤ nbins)
    (hCne : ∀ j, j < nbins → Cfwd A B p0 j ≠ 0) :
    ∀ m, m ≤ nbins - 1 →
      alphaFwd A B p0 (nbins - 1 - m) 0 *
        betaBwd A B (Cfwd A B p0) nbins (nbins - 1 - m) 0 +
      alphaFwd A B p0 (nbins - 1 - m) 1 *
        betaBwd A B (Cfwd A B p0) nbins (nbins - 1 - m) 1 =
      1 / Cfwd A B p0 (nbins - 1 - m) := by
  intro m
  induction m with
  | zero =>
    intro _
    rw [Nat.sub_zero, betaBwd_last, betaBwd_last]
    have hs := alphaFwd_sum A B p0 (nbins - 1) (hCne _ (by omega))
    calc alphaFwd A B p0 (nbins - 1) 0 * (1 / Cfwd A B p0 (nbins - 1)) +
          alphaFwd A B p0 (nbins - 1) 1 * (1 / Cfwd A B p0 (nbins - 1))
        = (alphaFwd A B p0 (nbins - 1) 0 + alphaFwd A B p0 (nbins - 1) 1) *
            (1 / Cfwd A B p0 (nbins - 1)) := by ring
      _ = 1 / Cfwd A B p0 (nbins - 1) := by rw [hs, one_mul]
  | succ m ih =>
    intro hm
    have hklt : nbins - 1 - (m + 1) < nbins - 1 := by omega
    have hk1 : nbins - 1 - (m + 1) + 1 = nbins - 1 - m := by omega
    have hIH := ih (by omega)
    rw [← hk1] at hIH
    rw [betaBwd_step A B _ nbins _ hklt, betaBwd_step A B _ nbins _ hklt]
    rw [alphaFwd_succ, alphaFwd_succ] at hIH
    have hCk : Cfwd A B p0 (nbins - 1 - (m + 1)) ≠ 0 := hCne _ (by omega)
    have hCk1 : Cfwd A B p0 (nbins - 1 - (m + 1) + 1) ≠ 0 := hCne _ (by omega)
    field_simp at hIH ⊢
    linear_combination hIH

/-- C2's exact-arithmetic consequence: when the forward guards pass, every
pairwise-posterior pre-normalization sum equals exactly 1 — the pairwise
guard can only fire under floating-point underflow. -/
theorem zetaSum_eq_one (A : Fin 2 → Fin 2 → ℚ) (B : Fin 2 → ℕ → ℚ)
    (p0 : Fin 2 → ℚ) (nbins : ℕ) (hn : 2 ≤ nbins)
    (hC : ∀ j, 1 ≤ j → j < nbins → 0 < Cfwd A B p0 j) :
    ∀ m, m < nbins - 1 →
      zetaSum A B (alphaFwd A B p0) (betaBwd A B (Cfwd A B p0) nbins) m = 1 := by
  have hCne : ∀ j, j < nbins → Cfwd A B p0 j ≠ 0 := by
    intro j hj
    rcases Nat.eq_zero_or_pos j with rfl | hj1
    · exact Cfwd_zero_ne A B p0 nbins hn hC
    · exact ne_of_gt (hC j hj1 hj)
  intro m hm
  have hdot := alphaBeta_dot A B p0 nbins hn hCne (nbins - 1 - (m + 1)) (by omega)
  rw [show nbins - 1 - (nbins - 1 - (m + 1)) = m + 1 by omega] at hdot
  unfold zetaSum zetaRaw
  rw [alphaFwd_succ, alphaFwd_succ] at hdot
  have hCm1 : Cfwd A B p0 (m + 1) ≠ 0 := hCne (m + 1) (by omega)
  field_simp at hdot ⊢
  linear_combination hdot

/-- Evaluation of the benign concrete run's EM loop: it succeeds after
exactly one iteration. -/
theorem cLoop_eval :
    emLoop cRexp1 cRlog1 cCount0 cHist1 2 1 (2 - 1) 0
      (initState cRexp1 cCount0 cHist1 cA 0 0 0 cLogP0) = .ok (cS, 1) := by
  norm_num [cS, cLoop, emLoop, emIter, cInit, initState, fwdFail, findBad,
    Cfwd, fwd, emissionB, binLambda, cRexp1, cRlog1, cCount0, cHist1, cA,
    cLogP0, stateVal, EPS, zetaFail, zetaSum, zetaRaw, alphaFwd, betaBwd,
    bwdAux, zetaNorm, newton_ralphson, nrLoop, nrStep, updateA, emLoopS,
    Finset.sum_range_succ]

/-- The benign concrete run succeeds, and its result is `getRes cRun`. -/
theorem cRun_eval :
    runHmmemCore cRexp1 cRlog1 cCount0 cHist1 cA 0 0 0 2 1 2 cLogP0 =
      .ok (getRes cRun) := by
  unfold cRun runHmmemCore
  rw [cLoop_eval]
  rfl

/-- The never-written last `gamma` column is preserved by the loop. -/
theorem emLoop_gamma_last (rexp rlog : ℚ → ℚ) (count hist : ℕ → ℕ)
    (nbins n_iter_NR : ℕ) (fuel t : ℕ) (s s' : EMState) (T : ℕ)
    (h : emLoop rexp rlog count hist nbins n_iter_NR fuel t s = .ok (s', T))
    (h0 : ∀ i, s.gamma (nbins - 1) i = 0) :
    ∀ i, s'.gamma (nbins - 1) i = 0 := by
  induction fuel generalizing t s with
  | zero =>
    rw [emLoop] at h
    injection h with h
    injection h with h1 h2
    subst h1
    exact h0
  | succ fuel ih =>
    rw [emLoop] at h
    split at h
    · split at h
      · exact absurd h (by simp)
      · rename_i s1 heq
        refine ih (t + 1) s1 h fun i => ?_
        rw [(emIter_ok_spec rexp rlog count hist nbins n_iter_NR t s s1 heq).2.2.2.1
          (nbins - 1) (by omega) i]
        exact h0 i
    · injection h with h
      injection h with h1 h2
      subst h1
      exact h0

/-- A successful loop either ran no iteration at all or its final state is
the output of a successful E/M iteration at counter `T - 1`. -/
theorem emLoop_last_iter (rexp rlog : ℚ → ℚ) (count hist : ℕ → ℕ)
    (nbins n_iter_NR : ℕ) (fuel t : ℕ) (s s' : EMState) (T : ℕ)
    (h : emLoop rexp rlog count hist nbins n_iter_NR fuel t s = .ok (s', T)) :
    (s' = s ∧ T = t) ∨
      ∃ sp, emIter rexp rlog count hist nbins n_iter_NR (T - 1) sp = .ok s' := by
  induction fuel generalizing t s with
  | zero =>
    rw [emLoop] at h
    injection h with h
    injection h with h1 h2
    exact Or.inl ⟨h1.symm, h2.symm⟩
  | succ fuel ih =>
    rw [emLoop] at h
    split at h
    · split at h
      · exact absurd h (by simp)
      · rename_i s1 heq
        rcases ih (t + 1) s1 h with ⟨he, hT⟩ | ⟨sp, hsp⟩
        · subst he
          refine Or.inr ⟨s, ?_⟩
          rw [show T - 1 = t by omega]
          exact heq
        · exact Or.inr ⟨sp, hsp⟩
    · injection h with h
      injection h with h1 h2
      exact Or.inl ⟨h1.symm, h2.symm⟩

/-- Inversion of a successful `_run_hmmem`: how each returned component is
assembled from the final loop state. -/
theorem runHmmemCore_ok_fields (rexp rlog : ℚ → ℚ) (count hist : ℕ → ℕ)
    (init_A : Fin 2 → Fin 2 → ℚ) (ia ib im : ℚ) (nEM nNR nbins : ℕ)
    (logP0 : ℕ → ℚ) (r : HmmResult) (s' : EMState) (T : ℕ)
    (hloop : emLoop rexp rlog count hist nbins nNR (nEM - 1) 0
      (initState rexp count hist init_A ia ib im logP0) = .ok (s', T))
    (hrun : runHmmemCore rexp rlog count hist init_A ia ib im nEM nNR nbins
      logP0 = .ok r) :
    (∀ k i, r.prob_S k i = s'.gamma k i) ∧
    r.alphaa = s'.alphaa ∧ r.betaa = s'.betaa ∧ r.mu = s'.mu ∧
    (∀ i j, r.A i j = s'.A i j) ∧ (∀ i k, r.B i k = s'.B i k) ∧
    (∀ i, r.p0 i = rexp (s'.gamma 0 i)) ∧
    r.log_P = (List.range nEM).map s'.logP ∧
    (∀ t, r.S t = (vitDecode (fun i j => rlog (s'.A i j + EPS))
      (fun i k => rlog (s'.B i k + EPS))
      (fun i => rlog (s'.gamma 0 i + EPS)) nbins).1 t) ∧
    r.log_L = (vitDecode (fun i j => rlog (s'.A i j + EPS))
      (fun i k => rlog (s'.B i k + EPS))
      (fun i => rlog (s'.gamma 0 i + EPS)) nbins).2 := by
  unfold runHmmemCore at hrun
  rw [hloop] at hrun
  injection hrun with hrun
  subst hrun
  exact ⟨fun k i => rfl, rfl, rfl, rfl, fun i j => rfl, fun i k => rfl,
    fun i => rfl, rfl, fun t => rfl, rfl⟩

/-- C3 (amended): in the state-probability table returned after at least one
completed EM iteration, every column `k < nbins - 1` written by the E-step
sums to exactly 1; the last column is never written by anything (the M-step
does not fill it), so it keeps its all-zero initialization and sums to 0. -/
theorem gamma_columns_sum (rexp rlog : ℚ → ℚ) (count hist : ℕ → ℕ)
    (init_A : Fin 2 → Fin 2 → ℚ) (ia ib im : ℚ) (nEM nNR nbins : ℕ)
    (logP0 : ℕ → ℚ) (r : HmmResult) (s' : EMState) (T : ℕ)
    (hloop : emLoop rexp rlog count hist nbins nNR (nEM - 1) 0
      (initState rexp count hist init_A ia ib im logP0) = .ok (s', T))
    (hrun : runHmmemCore rexp rlog count hist init_A ia ib im nEM nNR nbins
      logP0 = .ok r)
    (hT : 1 ≤ T) :
    (∀ k, k < nbins - 1 → r.prob_S k 0 + r.prob_S k 1 = 1) ∧
    r.prob_S (nbins - 1) 0 + r.prob_S (nbins - 1) 1 = 0 := by
  have hps := (runHmmemCore_ok_fields rexp rlog count hist init_A ia ib im nEM
    nNR nbins logP0 r s' T hloop hrun).1
  constructor
  · intro k hk
    rcases emLoop_last_iter rexp rlog count hist nbins nNR (nEM - 1) 0 _ s' T
        hloop with ⟨_, hT0⟩ | ⟨sp, hsp⟩
    · omega
    · have hspec := emIter_ok_spec rexp rlog count hist nbins nNR (T - 1) sp s' hsp
      rw [hps k 0, hps k 1, hspec.2.2.2.2.1 k hk 0, hspec.2.2.2.2.1 k hk 1]
      have hzf := hspec.2.1
      have hzs : 0 < zetaSum sp.A sp.B (alphaFwd sp.A sp.B sp.p0)
          (betaBwd sp.A sp.B (Cfwd sp.A sp.B sp.p0) nbins) k := by
        have hb := (findBad_eq_none _ 0 (nbins - 1)).mp hzf k (Nat.zero_le k)
          (by omega)
        simp only [decide_eq_false_iff_not, not_le] at hb
        exact hb
      have hS : zetaSum sp.A sp.B (alphaFwd sp.A sp.B sp.p0)
          (betaBwd sp.A sp.B (Cfwd sp.A sp.B sp.p0) nbins) k ≠ 0 := ne_of_gt hzs
      unfold zetaNorm
      field_simp
      unfold zetaSum
      ring
  · rw [hps (nbins - 1) 0, hps (nbins - 1) 1,
      emLoop_gamma_last rexp rlog count hist nbins nNR (nEM - 1) 0 _ s' T hloop
        (fun i => rfl) 0,
      emLoop_gamma_last rexp rlog count hist nbins nNR (nEM - 1) 0 _ s' T hloop
        (fun i => rfl) 1, add_zero]

theorem gamma_columns_sum_witness :
    (getRes cRun).prob_S 0 0 + (getRes cRun).prob_S 0 1 = 1 := by
  have h := gamma_columns_sum cRexp1 cRlog1 cCount0 cHist1 cA 0 0 0 2 1 2
    cLogP0 (getRes cRun) cS 1 cLoop_eval cRun_eval le_rfl
  exact h.1 0 (by norm_num)

/-- C3 counterexample: in the returned state-probability table of the benign
concrete run (`nbins = 2`, one completed EM iteration), the last column sums
to 0, not 1 — nothing (in particular not the M-step) ever fills
`gamma[:, nbins-1]`. -/
theorem gamma_last_column_counterexample :
    (getRes cRun).prob_S 1 0 + (getRes cRun).prob_S 1 1 = 0 ∧ (0 : ℚ) ≠ 1 := by
  have hfields := runHmmemCore_ok_fields cRexp1 cRlog1 cCount0 cHist1 cA 0 0 0
    2 1 2 cLogP0 (getRes cRun) cS 1 cLoop_eval cRun_eval
  have hz := emLoop_gamma_last cRexp1 cRlog1 cCount0 cHist1 2 1 (2 - 1) 0
    (initState cRexp1 cCount0 cHist1 cA 0 0 0 cLogP0) cS 1 cLoop_eval
    (fun i => rfl)
  refine ⟨?_, by norm_num⟩
  have h0 := hz 0
  have h1 := hz 1
  rw [show (2 : ℕ) - 1 = 1 from rfl] at h0 h1
  rw [hfields.1 1 0, hfields.1 1 1, h0, h1, add_zero]

/-- C8: the `p0` returned by `_run_hmmem` is `np.exp(gamma[:, 0])` (line
304's `p0 = np.exp(p0)`), not the marginal posterior `gamma[:, 0]` itself: in
the benign concrete run the posterior column at bin 0 sums to 1 but the
returned `p0` (the exp stand-in applied entrywise) sums to 2. -/
theorem p0_exp_bug :
    (∀ i, (getRes cRun).p0 i = cRexp1 ((getRes cRun).prob_S 0 i)) ∧
    (getRes cRun).prob_S 0 0 + (getRes cRun).prob_S 0 1 = 1 ∧
    (getRes cRun).p0 0 + (getRes cRun).p0 1 = 2 ∧ (2 : ℚ) ≠ 1 := by
  have hfields := runHmmemCore_ok_fields cRexp1 cRlog1 cCount0 cHist1 cA 0 0 0
    2 1 2 cLogP0 (getRes cRun) cS 1 cLoop_eval cRun_eval
  have hp0 := hfields.2.2.2.2.2.2.1
  have hps := hfields.1
  refine ⟨fun i => by rw [hp0 i, hps 0 i], ?_, ?_, by norm_num⟩
  · rw [hps 0 0, hps 0 1]
    norm_num [cS, cLoop, emLoop, emIter, cInit, initState, fwdFail, findBad,
      Cfwd, fwd, emissionB, binLambda, cRexp1, cRlog1, cCount0, cHist1, cA,
      cLogP0, stateVal, EPS, zetaFail, zetaSum, zetaRaw, alphaFwd, betaBwd,
      bwdAux, zetaNorm, newton_ralphson, nrLoop, nrStep, updateA, emLoopS,
      Finset.sum_range_succ]
  · rw [hp0 0, hp0 1]
    norm_num [cRexp1]

/-- C9 (amended): the log-likelihood trace returned by `_run_hmmem` is the
whole `np.empty`-allocated array of fixed length `n_iter_EM`: its first `T`
entries (one per completed iteration) are the loop's values, and every entry
with index at or above the number of completed iterations `T` still holds
the array's arbitrary initial (uninitialized) contents. -/
theorem log_P_trace (rexp rlog : ℚ → ℚ) (count hist : ℕ → ℕ)
    (init_A : Fin 2 → Fin 2 → ℚ) (ia ib im : ℚ) (nEM nNR nbins : ℕ)
    (logP0 : ℕ → ℚ) (r : HmmResult) (s' : EMState) (T : ℕ)
    (hloop : emLoop rexp rlog count hist nbins nNR (nEM - 1) 0
      (initState rexp count hist init_A ia ib im logP0) = .ok (s', T))
    (hrun : runHmmemCore rexp rlog count hist init_A ia ib im nEM nNR nbins
      logP0 = .ok r) :
    r.log_P.length = nEM ∧
    (∀ i, i < nEM → r.log_P.getD i 0 = s'.logP i) ∧
    (∀ i, T ≤ i → s'.logP i = logP0 i) := by
  have hlp := (runHmmemCore_ok_fields rexp rlog count hist init_A ia ib im nEM
    nNR nbins logP0 r s' T hloop hrun).2.2.2.2.2.2.2.1
  refine ⟨by rw [hlp]; simp, fun i hi => ?_, fun i hi => ?_⟩
  · rw [hlp, List.getD_eq_getElem?_getD, List.getElem?_map,
      List.getElem?_range hi]
    rfl
  · exact emLoop_logP_stable rexp rlog count hist nbins nNR (nEM - 1) 0 _ s' T
      hloop i (Or.inr hi)

theorem log_P_trace_witness :
    (getRes cRun).log_P.length = 2 ∧ cS.logP 1 = cLogP0 1 := by
  have h := log_P_trace cRexp1 cRlog1 cCount0 cHist1 cA 0 0 0 2 1 2 cLogP0
    (getRes cRun) cS 1 cLoop_eval cRun_eval
  exact ⟨h.1, h.2.2 1 le_rfl⟩

/-- C9 counterexample: in the benign concrete run the EM loop completes
exactly 1 iteration, yet the returned trace has length `n_iter_EM = 2`, and
its superfluous entry at index 1 still holds the modelled uninitialized
contents (55) — it was not written by any E-step. -/
theorem log_P_length_counterexample :
    emLoopT cLoop = some 1 ∧ (getRes cRun).log_P.length = 2 ∧ (2 : ℕ) ≠ 1 ∧
    (getRes cRun).log_P.getD 1 0 = 55 := by
  have hfields := runHmmemCore_ok_fields cRexp1 cRlog1 cCount0 cHist1 cA 0 0 0
    2 1 2 cLogP0 (getRes cRun) cS 1 cLoop_eval cRun_eval
  have hlp := hfields.2.2.2.2.2.2.2.1
  refine ⟨?_, by rw [hlp]; simp, by norm_num, ?_⟩
  · show emLoopT (emLoop cRexp1 cRlog1 cCount0 cHist1 2 1 (2 - 1) 0 cInit) = _
    rw [show cInit = initState cRexp1 cCount0 cHist1 cA 0 0 0 cLogP0 from rfl,
      cLoop_eval]
    rfl
  · rw [hlp, List.getD_eq_getElem?_getD, List.getElem?_map,
      List.getElem?_range (by norm_num : (1 : ℕ) < 2)]
    show cS.logP 1 = 55
    rw [emLoop_logP_stable cRexp1 cRlog1 cCount0 cHist1 2 1 (2 - 1) 0 _ cS 1
      cLoop_eval 1 (Or.inr le_rfl)]
    rfl

/-- C10: with `n_iter_EM ≤ 1` the EM loop body never executes — the run
returns the all-zero state-probability table, the unmodified `init_A`, the
initial `alphaa`/`betaa`/`mu`, while the Viterbi decoder still runs on the
emission table built from those initial parameters (and the returned `p0` is
`exp` of the all-zero posterior column, the trace the untouched array). -/
theorem em_cap_le_one_noop (rexp rlog : ℚ → ℚ) (count hist : ℕ → ℕ)
    (init_A : Fin 2 → Fin 2 → ℚ) (ia ib im : ℚ) (nEM nNR nbins : ℕ)
    (logP0 : ℕ → ℚ) (hcap : nEM ≤ 1) :
    runHmmemCore rexp rlog count hist init_A ia ib im nEM nNR nbins logP0 =
      .ok { S := (vitDecode (fun i j => rlog (init_A i j + EPS))
              (fun i k => rlog
                (emissionB rexp (binLambda rexp im ia ib hist) count i k + EPS))
              (fun _ => rlog (0 + EPS)) nbins).1,
            prob_S := fun _ _ => 0, alphaa := ia, betaa := ib, mu := im,
            A := init_A,
            B := emissionB rexp (binLambda rexp im ia ib hist) count,
            p0 := fun _ => rexp 0,
            log_L := (vitDecode (fun i j => rlog (init_A i j + EPS))
              (fun i k => rlog
                (emissionB rexp (binLambda rexp im ia ib hist) count i k + EPS))
              (fun _ => rlog (0 + EPS)) nbins).2,
            log_P := (List.range nEM).map logP0 } := by
  have h0 : nEM - 1 = 0 := by omega
  unfold runHmmemCore
  rw [h0]
  rfl

theorem em_cap_le_one_noop_witness :
    runHmmemCore cRexp1 cRlog1 cCount0 cHist1 cA 0 0 0 1 1 2 cLogP0 =
      .ok { S := (vitDecode (fun i j => cRlog1 (cA i j + EPS))
              (fun i k => cRlog1
                (emissionB cRexp1 (binLambda cRexp1 0 0 0 cHist1) cCount0 i k
                  + EPS))
              (fun _ => cRlog1 (0 + EPS)) 2).1,
            prob_S := fun _ _ => 0, alphaa := 0, betaa := 0, mu := 0,
            A := cA,
            B := emissionB cRexp1 (binLambda cRexp1 0 0 0 cHist1) cCount0,
            p0 := fun _ => cRexp1 0,
            log_L := (vitDecode (fun i j => cRlog1 (cA i j + EPS))
              (fun i k => cRlog1
                (emissionB cRexp1 (binLambda cRexp1 0 0 0 cHist1) cCount0 i k
                  + EPS))
              (fun _ => cRlog1 (0 + EPS)) 2).2,
            log_P := (List.range 1).map cLogP0 } :=
  em_cap_le_one_noop cRexp1 cRlog1 cCount0 cHist1 cA 0 0 0 1 1 2 cLogP0
    (by norm_num)

/-- C2 (amended): the E-step guards nonpositive scaling sums only for
forward bins `k ≥ 1` and for the pairwise blocks.  (i) The forward pass
aborts with `.alphaScaling t k` at the first `k ≥ 1` whose scaling sum is
non-positive — the `k = 0` scaling is divided through unguarded.  (ii) The
pairwise loop aborts with `.zetaScaling t k` at the first block whose
pre-normalization sum is non-positive.  (iii) In exact arithmetic a
successful forward pass forces every pairwise pre-normalization sum to equal
1, so the pairwise guard is reachable only through floating-point underflow
(which clause (ii)'s premises model). -/
theorem estep_scaling_guard (rexp rlog : ℚ → ℚ) (count hist : ℕ → ℕ)
    (nbins n_iter_NR t k : ℕ) (s : EMState) :
    (1 ≤ k → k < nbins → Cfwd s.A s.B s.p0 k ≤ 0 →
      (∀ j, 1 ≤ j → j < k → 0 < Cfwd s.A s.B s.p0 j) →
      emIter rexp rlog count hist nbins n_iter_NR t s =
        .error (.alphaScaling t k)) ∧
    (k < nbins - 1 →
      (∀ j, 1 ≤ j → j < nbins → 0 < Cfwd s.A s.B s.p0 j) →
      zetaSum s.A s.B (alphaFwd s.A s.B s.p0)
        (betaBwd s.A s.B (Cfwd s.A s.B s.p0) nbins) k ≤ 0 →
      (∀ j, j < k → 0 < zetaSum s.A s.B (alphaFwd s.A s.B s.p0)
        (betaBwd s.A s.B (Cfwd s.A s.B s.p0) nbins) j) →
      emIter rexp rlog count hist nbins n_iter_NR t s =
        .error (.zetaScaling t k)) ∧
    (2 ≤ nbins → (∀ j, 1 ≤ j → j < nbins → 0 < Cfwd s.A s.B s.p0 j) →
      ∀ m, m < nbins - 1 →
        zetaSum s.A s.B (alphaFwd s.A s.B s.p0)
          (betaBwd s.A s.B (Cfwd s.A s.B s.p0) nbins) m = 1) := by
  refine ⟨?_, ?_, fun hn hC => zetaSum_eq_one s.A s.B s.p0 nbins hn hC⟩
  · intro h1 h2 h3 h4
    refine emIter_error_alpha rexp rlog count hist nbins n_iter_NR t k s ?_
    refine (findBad_eq_some _ 1 (nbins - 1) k).mpr
      ⟨h1, by omega, ?_, fun j hj1 hj2 => ?_⟩
    · simp only [decide_eq_true_eq]
      exact h3
    · simp only [decide_eq_false_iff_not, not_le]
      exact h4 j hj1 hj2
  · intro h1 h2 h3 h4
    have hfwd : fwdFail s.A s.B s.p0 nbins = none :=
      (findBad_eq_none _ 1 (nbins - 1)).mpr fun j hj1 hj2 => by
        simp only [decide_eq_false_iff_not, not_le]
        exact h2 j hj1 (by omega)
    refine emIter_error_zeta rexp rlog count hist nbins n_iter_NR t k s hfwd ?_
    refine (findBad_eq_some _ 0 (nbins - 1) k).mpr
      ⟨Nat.zero_le k, by omega, ?_, fun j _ hj2 => ?_⟩
    · simp only [decide_eq_true_eq]
      exact h3
    · simp only [decide_eq_false_iff_not, not_le]
      exact h4 j hj2

theorem estep_scaling_guard_witness :
    emIter cRexp0 cRlog1 cCount1 cHist1 2 1 0 cInitU =
      .error (.alphaScaling 0 1) ∧
    zetaSum cInit.A cInit.B (alphaFwd cInit.A cInit.B cInit.p0)
      (betaBwd cInit.A cInit.B (Cfwd cInit.A cInit.B cInit.p0) 2) 0 = 1 := by
  constructor
  · refine (estep_scaling_guard cRexp0 cRlog1 cCount1 cHist1 2 1 0 1 cInitU).1
      (by norm_num) (by norm_num) ?_ (fun j hj1 hj2 => absurd hj2 (by omega))
    norm_num [Cfwd, fwd, cInitU, initState, emissionB, binLambda, cRexp0,
      cCount1, cHist1, cA, cLogP0, stateVal]
  · refine (estep_scaling_guard cRexp1 cRlog1 cCount0 cHist1 2 1 0 0 cInit).2.2
      (by norm_num) ?_ 0 (by norm_num)
    intro j hj1 hj2
    have hj : j = 1 := by omega
    subst hj
    norm_num [Cfwd, fwd, cInit, initState, emissionB, binLambda, cRexp1,
      cCount0, cHist1, cA, cLogP0, stateVal]

/-- C2 counterexample: in the underflowed concrete run the forward scaling
sum at bin `k = 0` is non-positive, yet the E-step does not abort reporting
bin 0 — the unguarded `k = 0` division goes through and the failure is
detected and reported only at `k = 1`. -/
theorem estep_k0_unguarded_counterexample :
    Cfwd cInitU.A cInitU.B cInitU.p0 0 ≤ 0 ∧
    emIter cRexp0 cRlog1 cCount1 cHist1 2 1 0 cInitU =
      .error (.alphaScaling 0 1) ∧
    HErr.alphaScaling 0 1 ≠ HErr.alphaScaling 0 0 := by
  refine ⟨?_, ?_, by decide⟩
  · norm_num [Cfwd, fwd, cInitU, initState, emissionB, binLambda, cRexp0,
      cCount1, cHist1, cA, cLogP0, stateVal]
  · norm_num [emIter, fwdFail, findBad, Cfwd, fwd, cInitU, initState,
      emissionB, binLambda, cRexp0, cRlog1, cCount1, cHist1, cA, cLogP0,
      stateVal]

/-- C1 (amended): the EM loop of `_run_hmmem` completes at most
`n_iter_EM - 1` iterations (the `while` guard is `t < n_iter_EM - 1`, not
`t < n_iter_EM`); it stops either with the budget exhausted
(`T = n_iter_EM - 1`) or because the log-likelihood failed to increase, which
is first possible after 3 completed iterations (the comparison
`log_P[t] - log_P[t-1]` is computed at the end of iteration `t` only for
`t ≥ 2`); and before the stopping point every computed comparison was
strictly positive. -/
theorem em_loop_termination (rexp rlog : ℚ → ℚ) (count hist : ℕ → ℕ)
    (init_A : Fin 2 → Fin 2 → ℚ) (ia ib im : ℚ)
    (n_iter_EM n_iter_NR nbins : ℕ) (logP0 : ℕ → ℚ) (s' : EMState) (T : ℕ)
    (h : emLoop rexp rlog count hist nbins n_iter_NR (n_iter_EM - 1) 0
        (initState rexp count hist init_A ia ib im logP0) = .ok (s', T)) :
    T ≤ n_iter_EM - 1 ∧
    (T = n_iter_EM - 1 ∨ (3 ≤ T ∧ s'.logP (T - 1) - s'.logP (T - 2) ≤ 0)) ∧
    (∀ u, u < T → 3 ≤ u → 0 < s'.logP (u - 1) - s'.logP (u - 2)) := by
  have hinv0 : emInv 0 (initState rexp count hist init_A ia ib im logP0) :=
    ⟨fun _ => rfl, fun hc => absurd hc (by omega)⟩
  have hb := emLoop_le_T rexp rlog count hist nbins n_iter_NR (n_iter_EM - 1) 0
    (initState rexp count hist init_A ia ib im logP0) s' T h
  have hx := emLoop_exit rexp rlog count hist nbins n_iter_NR (n_iter_EM - 1) 0
    (initState rexp count hist init_A ia ib im logP0) s' T h hinv0
  refine ⟨by omega, ?_, fun u hu h3 => hx.2.2 u (by omega) hu h3⟩
  rcases hx.2.1 with h1 | h1
  · exact Or.inl (by omega)
  · rcases Nat.lt_or_ge T 3 with hT | hT
    · have h10 := hx.1.1 hT
      rw [h10] at h1
      norm_num at h1
    · exact Or.inr ⟨hT, by rw [← hx.1.2 hT]; exact h1⟩

theorem em_loop_termination_witness :
    1 ≤ 2 - 1 ∧
    (1 = 2 - 1 ∨ (3 ≤ 1 ∧ cS.logP (1 - 1) - cS.logP (1 - 2) ≤ 0)) := by
  have h := em_loop_termination cRexp1 cRlog1 cCount0 cHist1 cA 0 0 0 2 1 2
    cLogP0 cS 1 cLoop_eval
  exact ⟨h.1, h.2.1⟩

/-- C1 counterexample: with `n_iter_EM = 2` the benign concrete run's EM loop
completes exactly 1 iteration and stops — the budget `n_iter_EM = 2` claimed
by the spec sentence is not exhausted (only `n_iter_EM - 1 = 1` iterations
ever run), and no log-likelihood comparison was made (which would require at
least 2 completed iterations by the claim's own reading), yet the loop
stopped. -/
theorem em_budget_counterexample :
    emLoopT cLoop = some 1 ∧ ¬ ((1 : ℕ) = 2 ∨ 2 ≤ 1) := by
  constructor
  · show emLoopT (emLoop cRexp1 cRlog1 cCount0 cHist1 2 1 (2 - 1) 0 cInit) = _
    rw [show cInit = initState cRexp1 cCount0 cHist1 cA 0 0 0 cLogP0 from rfl,
      cLoop_eval]
    rfl
  · decide

end OnOff
